import Mathlib

/-!
Verification of the stratified store sampler (`src/store_picker.py`).

The development shallowly embeds the two core functions of the source:

* `alloc_proportional_with_min` (lines 22-109) — a pure integer quota
  allocator over a dictionary of stratum capacities.  Python dictionaries
  are embedded as association lists with pairwise-distinct keys; the
  value view `d[k]` is the total function `lookupD`.  The two bounded
  round-robin while-loops become fuel-indexed recursions (`loopA`,
  `loopB`) whose fuel equals the source's explicit iteration bound
  `len(sorted_keys) * 2`, so the fuel is exactly the loop guard
  `i < len(sorted_keys) * 2`.  Python's float expression
  `int(math.floor(remaining * (cap_rem / remaining_total)))` is embedded
  in IEEE binary64 arithmetic, exactly as CPython evaluates it: the true
  division `cap_rem / remaining_total` is the correctly rounded double
  of the exact quotient, `remaining` is converted to its correctly
  rounded double, their product is rounded once more, and `math.floor`
  is exact on the result.  Doubles are represented as dyadic pairs
  `m * 2 ^ e` and the round-to-nearest-ties-to-even step is pure integer
  arithmetic (`roundFrac`), modelled on the normal range (no overflow or
  subnormals), which covers all values arising from the traced inputs.

* `pick_stores` (lines 112-210) — the pandas pipeline.  Dataframes are
  embedded as a column-name list plus a row list, cells as optional
  strings (strings as codepoint lists), and the two external random
  draws (`numpy`'s generator and `DataFrame.sample`) as an abstract
  `Sampler` whose fields state exactly the library contract the source
  relies on: a seeded deterministic stream of sub-seeds, and a draw of
  `n` distinct in-range row positions.  The function's raising paths
  are modelled as `Except.error`: the two explicit `KeyError` checks of
  lines 133-139, the `AttributeError` of line 150 when a stratification
  label is duplicated (`df[col]` is then a frame, which has no `.str`),
  and the `ValueError` of line 155 when `strat_cols` is empty while rows
  survive the id-null filter (the `axis=1` apply on a zero-column frame
  yields an empty result that cannot be assigned as a column).
-/

set_option maxRecDepth 40000

namespace StorePicker

variable {K : Type} [DecidableEq K]

/-- Python `sum(d.values())` for a dict with key list `keys` and value
function `f`. -/
def sumOver (keys : List K) (f : K → Int) : Int :=
  (keys.map f).sum

/-- Dictionary value lookup `d[k]` for a dict embedded as an association
list (first matching entry), defaulting to `0` for absent keys.  The
source only ever indexes with present keys. -/
def lookupD (l : List (K × Int)) (k : K) : Int :=
  ((l.find? (fun p => decide (p.1 = k))).map Prod.snd).getD 0

/-- The bounded round-robin loop of the fallback regime
(src/store_picker.py lines 57-63): while the allocated sum is below
`total` and the iteration count is below the fuel bound, walk the
sorted key list cyclically and increment a key's quota when it is below
capacity.  `dk` is an arbitrary default for list indexing (the sorted
list is never empty when the loop is reached). -/
def loopA (capf : K → Int) (skeys : List K) (dk : K) (total : Int) (keys : List K) :
    Nat → Nat → (K → Int) → (K → Int)
  | _, 0, al => al
  | i, fuel + 1, al =>
    if sumOver keys al < total then
      let k := skeys.getD (i % skeys.length) dk
      loopA capf skeys dk total keys (i + 1) fuel
        (if al k < capf k then Function.update al k (al k + 1) else al)
    else al

/-- The bounded leftover-distribution loop of the proportional regime
(src/store_picker.py lines 98-104): while leftover budget remains and
the iteration count is below the fuel bound, walk the sorted key list
cyclically, incrementing a key's extra allocation (and consuming one
unit of leftover) when it is below its remaining capacity. -/
def loopB (remCap : K → Int) (skeys : List K) (dk : K) :
    Int → Nat → Nat → (K → Int) → (K → Int)
  | _, _, 0, ex => ex
  | leftover, i, fuel + 1, ex =>
    if 0 < leftover then
      let k := skeys.getD (i % skeys.length) dk
      if ex k < remCap k then
        loopB remCap skeys dk (leftover - 1) (i + 1) fuel (Function.update ex k (ex k + 1))
      else
        loopB remCap skeys dk leftover (i + 1) fuel ex
    else ex

/-- Floor of base-2 logarithm with explicit fuel; any fuel at least the
value itself suffices, so `log2fuel n n` is total (the recursion depth
is logarithmic, one fuel unit per halving). -/
def log2fuel : Nat → Nat → Nat
  | 0, _ => 0
  | fuel + 1, n => if 2 ≤ n then log2fuel fuel (n / 2) + 1 else 0

/-- Does `2 ^ k ≤ a / b` hold for the fraction `a / b` with `b > 0`?
Decided by cross-multiplying with the (positive) power of two, so that
only integer arithmetic is involved. -/
def pow2LeFrac (k a b : Int) : Bool :=
  if 0 ≤ k then decide (b * 2 ^ k.toNat ≤ a) else decide (b ≤ a * 2 ^ (-k).toNat)

/-- Floor of the base-2 logarithm of the positive fraction `a / b`.
With `la = ⌊log2 a⌋` and `lb = ⌊log2 b⌋`, the quotient satisfies
`2 ^ (la - lb - 1) ≤ a / b < 2 ^ (la - lb + 1)`, so a single comparison
with `2 ^ (la - lb)` decides the floor. -/
def ilog2Frac (a b : Int) : Int :=
  let k : Int := (log2fuel a.toNat a.toNat : Int) - (log2fuel b.toNat b.toNat : Int)
  if pow2LeFrac k a b then k else k - 1

/-- The fraction `(a / b) / 2 ^ s` as a numerator/denominator pair,
clearing the power of two into whichever side keeps both integral. -/
def shiftFrac (a b s : Int) : Int × Int :=
  if 0 ≤ s then (a, b * 2 ^ s.toNat) else (a * 2 ^ (-s).toNat, b)

/-- Round the positive fraction `a / b` (`a > 0`, `b > 0`) to the
nearest IEEE binary64 value (round-to-nearest, ties-to-even), returned
as a dyadic pair `(m, e)` standing for `m * 2 ^ e`: scale the fraction
into `[2^52, 2^53)`, split off the floor `n` and remainder `r` of the
scaled fraction, and round the 53-bit significand by comparing `2 r`
with the denominator (ties go to the even significand).  Modelled on
the normal range (no overflow or subnormal handling), which covers
every value the source's allocator computes in the traced regimes. -/
def roundPosFrac (a b : Int) : Int × Int :=
  let s := ilog2Frac a b - 52
  let f := shiftFrac a b s
  let n := f.1.fdiv f.2
  let r := f.1 - n * f.2
  ((if 2 * r < f.2 then n
    else if f.2 < 2 * r then n + 1
    else if n % 2 = 0 then n else n + 1), s)

/-- Correctly rounded IEEE binary64 value of the fraction `a / b`
(`b > 0`), sign-symmetric round-to-nearest ties-to-even, as a dyadic
pair.  This models CPython's correctly rounded conversions:
`float(int)`, true division `int / int`, and the single rounding of a
float product. -/
def roundFrac (a b : Int) : Int × Int :=
  if a = 0 then (0, 0)
  else if a < 0 then ((- (roundPosFrac (-a) b).1), (roundPosFrac (-a) b).2)
  else roundPosFrac a b

/-- Floor of the dyadic value `m * 2 ^ e` (what `math.floor` returns on
the corresponding double, exactly). -/
def floorDyadic (m e : Int) : Int :=
  if 0 ≤ e then m * 2 ^ e.toNat else m.fdiv ((2 : Int) ^ (-e).toNat)

/-- The proportional extras of regime B before the leftover pass
(src/store_picker.py lines 78-88): `0` for keys without remaining
capacity, otherwise `int(math.floor(remaining * (cap_rem /
remaining_total)))` capped at the remaining capacity.  The inner
expression is computed in IEEE binary64 exactly as the source does:
`cap_rem / remaining_total` is the correctly rounded double of the
exact quotient, `remaining` is converted to its correctly rounded
double, their exact product (a fraction with a power-of-two
denominator) is rounded once more, and `math.floor` is exact on the
resulting double. -/
def extra0 (remaining remTotal : Int) (remCap : K → Int) : K → Int := fun k =>
  if remCap k ≤ 0 then 0
  else
    let p := roundFrac (remCap k) remTotal
    let r := roundFrac remaining 1
    let q := shiftFrac (r.1 * p.1) 1 (-(r.2 + p.2))
    let d := roundFrac q.1 q.2
    min (floorDyadic d.1 d.2) (remCap k)

/-- The extras of regime B after the leftover pass (lines 78-104): run
the bounded round-robin loop on the keys sorted by remaining headroom
descending whenever leftover budget remains. -/
def extrasF (remaining remTotal : Int) (remCap : K → Int) (keys : List K) (dk : K) :
    K → Int :=
  let ex0 := extra0 remaining remTotal remCap
  let leftover := remaining - sumOver keys ex0
  if 0 < leftover then
    let skeys := List.insertionSort (fun a b => remCap b - ex0 b ≤ remCap a - ex0 a) keys
    loopB remCap skeys dk leftover 0 (skeys.length * 2) ex0
  else ex0

/-- Body of `alloc_proportional_with_min` after the early returns for
`total <= 0` / no keys and after dropping zero-capacity strata
(src/store_picker.py lines 45-109).  `caps'` is the filtered dict
(non-empty at every call site), `dk` a default key for list indexing. -/
def allocCore (total : Int) (caps' : List (K × Int)) (m : Int) (dk : K) : List (K × Int) :=
  let keys := caps'.map Prod.fst
  let capf : K → Int := fun k => lookupD caps' k
  if (caps'.map Prod.snd).sum = 0 then keys.map (fun k => (k, 0))
  else if total < (keys.length : Int) * m then
    -- Regime A: even split, then round-robin top-up ordered by capacity
    -- descending.  Python's `sorted` is stable; a stable sort's output is
    -- determined by the key order and stability, so the stable
    -- `insertionSort` computes the same list.
    let base := Int.fdiv total (keys.length : Int)
    let al0 : K → Int := fun k => min base (capf k)
    let skeys := List.insertionSort (fun a b => capf b ≤ capf a) keys
    let alF := loopA capf skeys dk total keys 0 (skeys.length * 2) al0
    keys.map (fun k => (k, alF k))
  else
    -- Regime B: minimum floor, proportional extras, round-robin leftover.
    let al1 : K → Int := fun k => min m (capf k)
    let remaining := total - sumOver keys al1
    if remaining ≤ 0 then keys.map (fun k => (k, al1 k))
    else
      let remCap : K → Int := fun k => capf k - al1 k
      let remTotal := ((keys.map remCap).filter (fun v => decide (0 < v))).sum
      if remTotal ≤ 0 then keys.map (fun k => (k, al1 k))
      else keys.map (fun k => (k, al1 k + extrasF remaining remTotal remCap keys dk k))

/-- `alloc_proportional_with_min` (src/store_picker.py lines 22-109).
Returns the quota dict as an association list in dict (insertion)
order. -/
def allocProportionalWithMin (total : Int) (caps : List (K × Int)) (m : Int) :
    List (K × Int) :=
  if caps = [] ∨ total ≤ 0 then caps.map (fun p => (p.1, 0))
  else
    match caps.filter (fun p => decide (0 < p.2)) with
    | [] => []
    | p :: rest => allocCore total (p :: rest) m p.1

/-! ### Dataframe model

Strings are lists of Unicode codepoints, cells are nullable strings, a
dataframe is a column-name list plus a row list (one cell list per row).
-/

/-- A string, as its list of codepoints. -/
abbrev Str := List Nat

/-- A dataframe cell: `none` is a missing value (NaN). -/
abbrev Cell := Option Str

/-- One dataframe row: the cells, positionally aligned with the column
names. -/
abbrev Row := List Cell

/-- A pandas dataframe: named columns over a list of rows. -/
structure Df where
  cols : List Str
  rows : List Row

/-- Position of the column named `c` (first occurrence). -/
def findCol (cols : List Str) (c : Str) : Option Nat :=
  match cols with
  | [] => none
  | x :: t => if x = c then some 0 else (findCol t c).map (· + 1)

/-- The cell of row `r` in the column named `c` (`none` when the column
is absent — the source validates presence first). -/
def getCell (cols : List Str) (r : Row) (c : Str) : Cell :=
  match findCol cols c with
  | some i => r.getD i none
  | none => none

/-- Python whitespace recognised by `str.strip`, on the ASCII fragment. -/
def isWs (c : Nat) : Bool := decide (c = 32 ∨ (9 ≤ c ∧ c ≤ 13))

/-- Python `str.upper`, on the ASCII fragment: lower-case letters move
down by 32, everything else is unchanged. -/
def upChar (c : Nat) : Nat := if 97 ≤ c ∧ c ≤ 122 then c - 32 else c

/-- Python `str.upper` over a whole string. -/
def pyUpper (s : Str) : Str := s.map upChar

/-- Python `str.strip`: remove leading and trailing whitespace. -/
def pyStrip (s : Str) : Str :=
  ((s.dropWhile isWs).reverse.dropWhile isWs).reverse

/-- The codepoints of the literal sentinel `"UNKNOWN"`. -/
def unknownStr : Str := [85, 78, 75, 78, 79, 87, 78]

/-- Normalization of one stratification cell
(`.fillna("UNKNOWN").astype(str).str.strip().str.upper()`,
src/store_picker.py lines 146-152). -/
def normValue (c : Cell) : Str := pyUpper (pyStrip (c.getD unknownStr))

/-- The per-row effect of the loop `for col in strat_cols: df[col] = ...`
(lines 145-152): every cell sitting under a column named in `stratCols`
is replaced by its normalized value. -/
def normRow (stratCols : List Str) : List Str → Row → Row
  | _, [] => []
  | [], r => r
  | cname :: ct, cell :: rt =>
    (if cname ∈ stratCols then some (normValue cell) else cell) :: normRow stratCols ct rt

/-- The rows the sampler actually works on: `df.dropna(subset=[id_col])`
followed by stratification-column normalization (lines 141-152). -/
def normRows (df : Df) (idCol : Str) (stratCols : List Str) : List Row :=
  (df.rows.filter (fun r => (getCell df.cols r idCol).isSome)).map (normRow stratCols df.cols)

/-- The `_stratum_key` of a row: the tuple of its (already normalized)
stratification-column values, in column-argument order (lines 154-158). -/
def rowKey (cols stratCols : List Str) (r : Row) : List Str :=
  stratCols.map (fun c => (getCell cols r c).getD unknownStr)

/-- The identifier of a row compared "as text" (`.astype(str)`,
line 197); surviving rows always have a non-null id cell. -/
def idText (cols : List Str) (idCol : Str) (r : Row) : Str :=
  (getCell cols r idCol).getD unknownStr

/-- Distinct elements in order of first appearance. -/
def firstDedup {α : Type} [DecidableEq α] (l : List α) : List α :=
  l.foldl (fun acc a => if a ∈ acc then acc else acc ++ [a]) []

/-- Multiplicity of `k` in a key list. -/
def countKey (ks : List (List Str)) (k : List Str) : Nat :=
  (ks.filter (fun x => decide (x = k))).length

/-- pandas `Series.value_counts().to_dict()` (lines 161-162): the
distinct stratum keys with their multiplicities, ordered by count
descending (stable). -/
def valueCounts (ks : List (List Str)) : List (List Str × Int) :=
  List.insertionSort (fun a b => b.2 ≤ a.2)
    ((firstDedup ks).map (fun k => (k, (countKey ks k : Int))))

/-- Modelled from the spec: the external random machinery the source
delegates to — numpy's seeded generator (`np.random.default_rng(seed)`
and its `integers` draws) and pandas `DataFrame.sample(n, random_state)`
— is library code outside this repository.  Per §4.3/§5 of the spec the
draws are deterministic functions of the seed, without replacement:
`stream seed i` is the i-th integer drawn from the seeded generator, and
`pick s n len` is the list of row positions chosen by a sub-seeded draw
of `n` distinct in-range positions out of `len`. -/
structure Sampler where
  stream : Option Int → Nat → Nat
  pick : Nat → Nat → Nat → List Nat
  pick_length : ∀ s n len, n ≤ len → (pick s n len).length = n
  pick_nodup : ∀ s n len, (pick s n len).Nodup
  pick_lt : ∀ s n len, n ≤ len → ∀ i ∈ pick s n len, i < len

/-- A concrete sampler satisfying the library contract: draw the first
`n` positions. -/
def takeSampler : Sampler where
  stream := fun _ _ => 0
  pick := fun _ n len => (List.range len).take n
  pick_length := by
    intro s n len h
    simp [List.length_take, Nat.min_eq_left h]
  pick_nodup := by
    intro s n len
    exact (List.nodup_range len).sublist (List.take_sublist _ _)
  pick_lt := by
    intro s n len _ i hi
    exact List.mem_range.mp ((List.take_subset _ _) hi)

/-- Row positions of the stratum `key` (the filter
`df[df["_stratum_key"] == key]`, line 177), in row order. -/
def stratumIdxs (cols stratCols : List Str) (rows : List Row) (key : List Str) : List Nat :=
  (List.range rows.length).filter
    (fun i => decide (rowKey cols stratCols (rows.getD i []) = key))

/-- The per-stratum draw loop (lines 174-186), iterating over the quota
dict: skip non-positive quotas and empty strata, otherwise draw
`min(quota, stratum size)` distinct rows with a fresh sub-seed.  Returns
the rng draw counter and the accumulated selected row positions. -/
def drawStrata (S : Sampler) (seed : Option Int) (cols stratCols : List Str) (rows : List Row) :
    List (List Str × Int) → Nat → List Nat → Nat × List Nat
  | [], ctr, sel => (ctr, sel)
  | (key, quota) :: rest, ctr, sel =>
    if quota ≤ 0 then drawStrata S seed cols stratCols rows rest ctr sel
    else
      let idxs := stratumIdxs cols stratCols rows key
      if idxs = [] then drawStrata S seed cols stratCols rows rest ctr sel
      else
        let nSample := (min quota (idxs.length : Int)).toNat
        let picks := S.pick (S.stream seed ctr) nSample idxs.length
        drawStrata S seed cols stratCols rows rest (ctr + 1)
          (sel ++ picks.map (fun j => idxs.getD j 0))

/-- The id texts of the already selected row positions
(`selected[id_col].astype(str)`, line 197). -/
def selTexts (cols : List Str) (idCol : Str) (rows : List Row) (sel : List Nat) :
    List Str :=
  sel.map (fun i => idText cols idCol (rows.getD i []))

/-- Row positions of the remaining pool: rows whose id text is not among
the selected id texts (lines 196-198). -/
def remIdxs (cols : List Str) (idCol : Str) (rows : List Row) (sel : List Nat) :
    List Nat :=
  (List.range rows.length).filter
    (fun i => decide (idText cols idCol (rows.getD i []) ∉ selTexts cols idCol rows sel))

/-- The global top-up pass (lines 193-204): when the per-stratum draws
fall short of the target, draw `min(need, |remaining pool|)` additional
rows from the remaining pool with a fresh sub-seed. -/
def topUpSel (S : Sampler) (seed : Option Int) (cols : List Str) (idCol : Str)
    (rows : List Row) (totalTarget : Int) (ctr : Nat) (sel : List Nat) : List Nat :=
  if (sel.length : Int) < totalTarget then
    if remIdxs cols idCol rows sel = [] then sel
    else
      sel ++ (S.pick (S.stream seed ctr)
        (min (totalTarget - (sel.length : Int))
          ((remIdxs cols idCol rows sel).length : Int)).toNat
        (remIdxs cols idCol rows sel).length).map
          (fun j => (remIdxs cols idCol rows sel).getD j 0)
  else sel

/-- The row positions selected by `pick_stores` once validation has
passed (lines 141-204). -/
def selIdxs (S : Sampler) (df : Df) (idCol : Str) (stratCols : List Str)
    (targetN : Int) (seed : Option Int) (m : Int) : List Nat :=
  let rows := normRows df idCol stratCols
  let caps := valueCounts (rows.map (rowKey df.cols stratCols))
  let totalTarget := min targetN (rows.length : Int)
  let ds := drawStrata S seed df.cols stratCols rows
    (allocProportionalWithMin totalTarget caps m) 0 []
  topUpSel S seed df.cols idCol rows totalTarget ds.1 ds.2

/-- The selection returned by `pick_stores` once validation has passed:
the selected rows, stratification columns normalized, the helper
`_stratum_key` column added and dropped again (net effect: none on the
returned cells). -/
def pickStoresRows (S : Sampler) (df : Df) (idCol : Str) (stratCols : List Str)
    (targetN : Int) (seed : Option Int) (m : Int) : List Row :=
  (selIdxs S df idCol stratCols targetN seed m).map
    (fun i => (normRows df idCol stratCols).getD i [])

/-- `pick_stores` (src/store_picker.py lines 112-210): eager column
validation (lines 133-139, a `KeyError` carrying the missing names),
then the sampling pipeline.  Two later statements can also raise, and
the model mirrors them in source order: during the normalization loop,
`df[col].str` (line 150) raises `AttributeError` when the label `col`
is duplicated among the frame's columns (`df[col]` is then a DataFrame,
which has no `.str`); and `df[strat_cols].apply(..., axis=1)`
(line 155) raises `ValueError` when `strat_cols` is empty while the
frame still has rows after the id-null filter (pandas builds an empty
result series against a non-empty index). -/
def pickStores (S : Sampler) (df : Df) (idCol : Str) (stratCols : List Str)
    (targetN : Int) (seed : Option Int) (m : Int) : Except (List Str) (List Row) :=
  if idCol ∉ df.cols then .error [idCol]
  else if stratCols.filter (fun c => decide (c ∉ df.cols)) ≠ [] then
    .error (stratCols.filter (fun c => decide (c ∉ df.cols)))
  else if stratCols.filter (fun c => decide (2 ≤ df.cols.countP (fun c2 => decide (c2 = c)))) ≠ [] then
    .error (stratCols.filter (fun c => decide (2 ≤ df.cols.countP (fun c2 => decide (c2 = c)))))
  else if stratCols = []
      ∧ df.rows.filter (fun r => (getCell df.cols r idCol).isSome) ≠ [] then
    .error []
  else .ok (pickStoresRows S df idCol stratCols targetN seed m)

/-! ### Object-identity trace for the frame-effect claim

Python dataframes are mutable heap objects.  `pick_stores` rebinds its
`df` parameter to `df.dropna(subset=[id_col]).copy()` (line 142) — both
`dropna` and `.copy()` allocate fresh objects — and every subsequent
in-place write (`df[col] = …`, `df["_stratum_key"] = …`) hits that
fresh object.  The trace makes the heap explicit: dataframe objects
live at indices of a heap list, allocation appends, in-place writes
`List.set` their index. -/

/-- An arbitrary encoding of a `_stratum_key` tuple as a cell string
(each component length-prefixed); only the presence of the helper
column matters to the claims, never this value. -/
def encodeKey (k : List Str) : Str :=
  k.foldr (fun s acc => (s.length + 1) :: (s ++ acc)) []

/-- The codepoints of `"_stratum_key"`. -/
def stratumKeyCol : Str :=
  [95, 115, 116, 114, 97, 116, 117, 109, 95, 107, 101, 121]

/-- Heap trace of one `pick_stores` call: `heap` is the caller's object
heap, `dfRef` the index of the argument dataframe.  Returns the heap
after the call together with the call's result. -/
def pickStoresTrace (S : Sampler) (heap : List Df) (dfRef : Nat) (idCol : Str)
    (stratCols : List Str) (targetN : Int) (seed : Option Int) (m : Int) :
    List Df × Except (List Str) (List Row) :=
  let df := heap.getD dfRef ⟨[], []⟩
  if idCol ∉ df.cols then (heap, .error [idCol])
  else if stratCols.filter (fun c => decide (c ∉ df.cols)) ≠ [] then
    (heap, .error (stratCols.filter (fun c => decide (c ∉ df.cols))))
  else
    -- line 142: `df = df.dropna(subset=[id_col]).copy()` allocates; the
    -- parameter name now refers to the fresh object at `ref1`.
    let d1 : Df := ⟨df.cols, df.rows.filter (fun r => (getCell df.cols r idCol).isSome)⟩
    let heap1 := heap ++ [d1]
    let ref1 := heap.length
    -- lines 145-152: in-place writes of the normalized columns, to `ref1`.
    let d2 : Df := ⟨d1.cols, d1.rows.map (normRow stratCols d1.cols)⟩
    let heap2 := heap1.set ref1 d2
    -- lines 155-158: in-place write of the helper key column, to `ref1`.
    let d3 : Df := ⟨d2.cols ++ [stratumKeyCol],
      d2.rows.map (fun r => r ++ [some (encodeKey (rowKey d2.cols stratCols r))])⟩
    let heap3 := heap2.set ref1 d3
    -- lines 160-210 only read and build fresh frames (`value_counts`,
    -- boolean-mask filters, `sample`, `concat`, `drop(columns=…)`).
    (heap3, .ok (pickStoresRows S df idCol stratCols targetN seed m))

/-! ## Theorems -/

/-! ### Generic list and lookup lemmas -/

theorem lookupD_mem_of_mem_fst {l : List (K × Int)} {k : K}
    (hk : k ∈ l.map Prod.fst) : (k, lookupD l k) ∈ l := by
  induction l with
  | nil => simp at hk
  | cons p t ih =>
    by_cases h : p.1 = k
    · have hv : lookupD (p :: t) k = p.2 := by
        simp [lookupD, List.find?_cons_of_pos, h]
      rw [hv]
      cases p with
      | mk a b =>
        cases h
        exact List.mem_cons_self _ _
    · have hk' : k ∈ t.map Prod.fst := by
        rcases List.mem_map.mp hk with ⟨q, hq, hqe⟩
        rcases List.mem_cons.mp hq with rfl | hqt
        · exact absurd hqe h
        · exact hqe ▸ List.mem_map_of_mem Prod.fst hqt
      have : lookupD (p :: t) k = lookupD t k := by
        simp [lookupD, List.find?_cons_of_neg, h]
      rw [this]
      exact List.mem_cons_of_mem _ (ih hk')

theorem lookupD_eq_of_mem {l : List (K × Int)} {k : K} {v : Int}
    (hnd : (l.map Prod.fst).Nodup) (hm : (k, v) ∈ l) : lookupD l k = v := by
  induction l with
  | nil => cases hm
  | cons p t ih =>
    rw [List.map_cons, List.nodup_cons] at hnd
    rcases List.mem_cons.mp hm with rfl | hmt
    · simp [lookupD, List.find?_cons_of_pos]
    · have hne : p.1 ≠ k := by
        intro h
        exact hnd.1 (h ▸ List.mem_map_of_mem Prod.fst hmt)
      have : lookupD (p :: t) k = lookupD t k := by
        simp [lookupD, List.find?_cons_of_neg, hne]
      rw [this]
      exact ih hnd.2 hmt

theorem nodup_filter_fst {caps : List (K × Int)} (p : K × Int → Bool)
    (hnd : (caps.map Prod.fst).Nodup) : ((caps.filter p).map Prod.fst).Nodup :=
  hnd.sublist (List.Sublist.map Prod.fst (List.filter_sublist caps))

theorem lookupD_filter_of_mem {caps : List (K × Int)} {k : K} {p : K × Int → Bool}
    (hnd : (caps.map Prod.fst).Nodup) (hk : k ∈ (caps.filter p).map Prod.fst) :
    lookupD (caps.filter p) k = lookupD caps k := by
  have h1 := lookupD_mem_of_mem_fst hk
  have h2 : (k, lookupD (caps.filter p) k) ∈ caps := (List.mem_filter.mp h1).1
  exact (lookupD_eq_of_mem hnd h2).symm

theorem mem_map_pair {keys : List K} {f : K → Int} {k : K} {q : Int} :
    (k, q) ∈ keys.map (fun j => (j, f j)) ↔ k ∈ keys ∧ q = f k := by
  simp only [List.mem_map, Prod.mk.injEq]
  constructor
  · rintro ⟨j, hj, rfl, rfl⟩
    exact ⟨hj, rfl⟩
  · rintro ⟨hk, rfl⟩
    exact ⟨k, hk, rfl, rfl⟩

theorem snd_map_pair (keys : List K) (f : K → Int) :
    ((keys.map (fun j => (j, f j))).map Prod.snd).sum = sumOver keys f := by
  simp [sumOver, List.map_map, Function.comp_def]

theorem fst_map_pair (keys : List K) (f : K → Int) :
    (keys.map (fun j => (j, f j))).map Prod.fst = keys := by
  simp [List.map_map, Function.comp_def]

/-! ### Round-robin loop invariants -/

theorem loopA_le_cap {capf : K → Int} {skeys keys : List K} {dk : K} {total : Int} :
    ∀ (fuel i : Nat) (al : K → Int), (∀ j, al j ≤ capf j) →
      ∀ j, loopA capf skeys dk total keys i fuel al j ≤ capf j := by
  intro fuel
  induction fuel with
  | zero => intro i al h j; simpa [loopA] using h j
  | succ n ih =>
    intro i al h j
    simp only [loopA]
    split
    · apply ih
      intro j'
      split
      case isTrue hc =>
        rw [Function.update_apply]
        split
        case isTrue he => subst he; omega
        case isFalse he => exact h j'
      case isFalse hc => exact h j'
    · exact h j

theorem loopA_ge {capf : K → Int} {skeys keys : List K} {dk : K} {total : Int} :
    ∀ (fuel i : Nat) (al : K → Int) (j : K),
      al j ≤ loopA capf skeys dk total keys i fuel al j := by
  intro fuel
  induction fuel with
  | zero => intro i al j; simp [loopA]
  | succ n ih =>
    intro i al j
    simp only [loopA]
    split
    · refine le_trans ?_ (ih (i + 1) _ j)
      split
      case isTrue hc =>
        rw [Function.update_apply]
        split
        case isTrue he => subst he; omega
        case isFalse he => exact le_refl _
      case isFalse hc => exact le_refl _
    · exact le_refl _

theorem loopB_le {remCap : K → Int} {skeys : List K} {dk : K} :
    ∀ (fuel : Nat) (leftover : Int) (i : Nat) (ex : K → Int),
      (∀ j, ex j ≤ max (remCap j) 0) →
      ∀ j, loopB remCap skeys dk leftover i fuel ex j ≤ max (remCap j) 0 := by
  intro fuel
  induction fuel with
  | zero => intro leftover i ex h j; simpa [loopB] using h j
  | succ n ih =>
    intro leftover i ex h j
    simp only [loopB]
    split
    case isTrue hl =>
      split
      case isTrue hc =>
        apply ih
        intro j'
        rw [Function.update_apply]
        split
        next he =>
          subst he
          have := le_max_left (remCap (skeys.getD (i % skeys.length) dk)) (0 : Int)
          omega
        next he => exact h j'
      case isFalse hc => exact ih leftover (i + 1) ex h j
    case isFalse hl => exact h j

theorem loopB_ge {remCap : K → Int} {skeys : List K} {dk : K} :
    ∀ (fuel : Nat) (leftover : Int) (i : Nat) (ex : K → Int) (j : K),
      ex j ≤ loopB remCap skeys dk leftover i fuel ex j := by
  intro fuel
  induction fuel with
  | zero => intro leftover i ex j; simp [loopB]
  | succ n ih =>
    intro leftover i ex j
    simp only [loopB]
    split
    case isTrue hl =>
      split
      case isTrue hc =>
        refine le_trans ?_ (ih (leftover - 1) (i + 1)
          (Function.update ex (skeys.getD (i % skeys.length) dk)
            (ex (skeys.getD (i % skeys.length) dk) + 1)) j)
        rw [Function.update_apply]
        split
        next he => subst he; omega
        next he => exact le_refl _
      case isFalse hc => exact ih leftover (i + 1) ex j
    case isFalse hl => exact le_refl _

/-! ### Regime-B extras -/

theorem shiftFrac_fst_nonneg {a : Int} (b s : Int) (ha : 0 ≤ a) :
    0 ≤ (shiftFrac a b s).1 := by
  unfold shiftFrac
  split
  · exact ha
  · exact mul_nonneg ha (by positivity)

theorem shiftFrac_snd_pos (a : Int) {b : Int} (s : Int) (hb : 0 < b) :
    0 < (shiftFrac a b s).2 := by
  unfold shiftFrac
  split
  · exact mul_pos hb (by positivity)
  · exact hb

theorem roundPosFrac_fst_nonneg {a b : Int} (ha : 0 ≤ a) (hb : 0 < b) :
    0 ≤ (roundPosFrac a b).1 := by
  simp only [roundPosFrac]
  have h1 := shiftFrac_fst_nonneg b (ilog2Frac a b - 52) ha
  have h2 := shiftFrac_snd_pos a (ilog2Frac a b - 52) hb
  have hn : 0 ≤ (shiftFrac a b (ilog2Frac a b - 52)).1.fdiv
      (shiftFrac a b (ilog2Frac a b - 52)).2 :=
    Int.fdiv_nonneg h1 h2.le
  split_ifs <;> omega

theorem roundFrac_fst_nonneg {a b : Int} (ha : 0 ≤ a) (hb : 0 < b) :
    0 ≤ (roundFrac a b).1 := by
  unfold roundFrac
  split
  · exact le_refl 0
  · split
    · omega
    · exact roundPosFrac_fst_nonneg ha hb

theorem floorDyadic_nonneg {m : Int} (e : Int) (hm : 0 ≤ m) :
    0 ≤ floorDyadic m e := by
  unfold floorDyadic
  split
  · exact mul_nonneg hm (by positivity)
  · exact Int.fdiv_nonneg hm (by positivity)

theorem extra0_nonneg {remaining remTotal : Int} (remCap : K → Int)
    (hrem : 0 < remaining) (hT : 0 < remTotal) (j : K) :
    0 ≤ extra0 remaining remTotal remCap j := by
  simp only [extra0]
  split
  next h => exact le_refl 0
  next h =>
    push_neg at h
    refine le_min ?_ h.le
    refine floorDyadic_nonneg _ ?_
    refine roundFrac_fst_nonneg ?_ (shiftFrac_snd_pos _ _ one_pos)
    refine shiftFrac_fst_nonneg _ _ ?_
    exact mul_nonneg (roundFrac_fst_nonneg hrem.le one_pos)
      (roundFrac_fst_nonneg h.le hT)

theorem extra0_le_max {remaining remTotal : Int} {remCap : K → Int} (j : K) :
    extra0 remaining remTotal remCap j ≤ max (remCap j) 0 := by
  unfold extra0
  split
  next h => exact le_max_right _ _
  next h => exact le_trans (min_le_right _ _) (le_max_left _ _)

theorem extrasF_ge (remaining remTotal : Int) (remCap : K → Int) (keys : List K) (dk : K)
    (j : K) :
    extra0 remaining remTotal remCap j ≤ extrasF remaining remTotal remCap keys dk j := by
  unfold extrasF
  split
  · exact loopB_ge _ _ _ _ j
  · exact le_refl _

theorem extrasF_le_max (remaining remTotal : Int) (remCap : K → Int) (keys : List K)
    (dk : K) (j : K) :
    extrasF remaining remTotal remCap keys dk j ≤ max (remCap j) 0 := by
  unfold extrasF
  split
  · exact loopB_le _ _ _ _ (fun j' => extra0_le_max j') j
  · exact extra0_le_max j

/-! ### Properties of `allocCore` -/

theorem allocCore_keys (total : Int) (caps' : List (K × Int)) (m : Int) (dk : K) :
    (allocCore total caps' m dk).map Prod.fst = caps'.map Prod.fst := by
  simp only [allocCore]
  split_ifs <;> rw [fst_map_pair]

theorem allocCore_le_cap {caps' : List (K × Int)} {total m : Int} {dk : K} {k : K} {q : Int}
    (hvals : ∀ p ∈ caps', 0 < p.2)
    (hmem : (k, q) ∈ allocCore total caps' m dk) :
    q ≤ lookupD caps' k := by
  have hcap : ∀ j ∈ caps'.map Prod.fst, 0 < lookupD caps' j :=
    fun j hj => hvals _ (lookupD_mem_of_mem_fst hj)
  simp only [allocCore] at hmem
  split_ifs at hmem with h0 hA hR1 hR2
  · rw [mem_map_pair] at hmem
    exact hmem.2 ▸ (hcap k hmem.1).le
  · rw [mem_map_pair] at hmem
    obtain ⟨hk, rfl⟩ := hmem
    exact loopA_le_cap _ _ _ (fun j => min_le_right _ _) k
  · rw [mem_map_pair] at hmem
    obtain ⟨hk, rfl⟩ := hmem
    exact min_le_right _ _
  · rw [mem_map_pair] at hmem
    obtain ⟨hk, rfl⟩ := hmem
    exact min_le_right _ _
  · rw [mem_map_pair] at hmem
    obtain ⟨hk, rfl⟩ := hmem
    have h1 := extrasF_le_max
      (total - sumOver (caps'.map Prod.fst) (fun j => min m (lookupD caps' j)))
      ((((caps'.map Prod.fst).map
        (fun j => lookupD caps' j - min m (lookupD caps' j))).filter
          (fun v => decide (0 < v))).sum)
      (fun j => lookupD caps' j - min m (lookupD caps' j))
      (caps'.map Prod.fst) dk k
    have h2 : min m (lookupD caps' k) ≤ lookupD caps' k := min_le_right _ _
    have h3 : max (lookupD caps' k - min m (lookupD caps' k)) 0
        = lookupD caps' k - min m (lookupD caps' k) := max_eq_left (by omega)
    omega

theorem allocCore_ge_min {caps' : List (K × Int)} {total m : Int} {dk : K} {k : K} {q : Int}
    (hvals : ∀ p ∈ caps', 0 < p.2) (hne : caps' ≠ [])
    (hB : ((caps'.length : Int)) * m ≤ total)
    (hmem : (k, q) ∈ allocCore total caps' m dk) :
    min m (lookupD caps' k) ≤ q := by
  simp only [allocCore] at hmem
  split_ifs at hmem with h0 hA hR1 hR2
  · exact absurd h0 (ne_of_gt (List.sum_pos _
      (fun x hx => by
        rcases List.mem_map.mp hx with ⟨p, hp, rfl⟩
        exact hvals p hp)
      (by simpa [List.map_eq_nil_iff] using hne)))
  · rw [List.length_map] at hA
    exact absurd hA (not_lt.mpr hB)
  · rw [mem_map_pair] at hmem
    obtain ⟨hk, rfl⟩ := hmem
    exact le_refl _
  · rw [mem_map_pair] at hmem
    obtain ⟨hk, rfl⟩ := hmem
    exact le_refl _
  · rw [mem_map_pair] at hmem
    obtain ⟨hk, rfl⟩ := hmem
    rw [not_le] at hR1 hR2
    have h1 := extra0_nonneg
      (fun j => lookupD caps' j - min m (lookupD caps' j)) hR1 hR2 k
    have h2 := extrasF_ge
      (total - sumOver (caps'.map Prod.fst) (fun j => min m (lookupD caps' j)))
      ((((caps'.map Prod.fst).map
        (fun j => lookupD caps' j - min m (lookupD caps' j))).filter
          (fun v => decide (0 < v))).sum)
      (fun j => lookupD caps' j - min m (lookupD caps' j))
      (caps'.map Prod.fst) dk k
    omega

theorem allocCore_nonneg {caps' : List (K × Int)} {total m : Int} {dk : K} {k : K} {q : Int}
    (hvals : ∀ p ∈ caps', 0 < p.2) (htot : 0 < total) (hm : 0 ≤ m)
    (hmem : (k, q) ∈ allocCore total caps' m dk) : 0 ≤ q := by
  have hcap : ∀ j ∈ caps'.map Prod.fst, 0 < lookupD caps' j :=
    fun j hj => hvals _ (lookupD_mem_of_mem_fst hj)
  simp only [allocCore] at hmem
  split_ifs at hmem with h0 hA hR1 hR2
  · rw [mem_map_pair] at hmem
    omega
  · rw [mem_map_pair] at hmem
    obtain ⟨hk, rfl⟩ := hmem
    have h1 : 0 ≤ min (Int.fdiv total ((caps'.map Prod.fst).length : Int)) (lookupD caps' k) :=
      le_min (Int.fdiv_nonneg htot.le (by positivity)) (hcap k hk).le
    exact le_trans h1 (loopA_ge _ _ _ k)
  · rw [mem_map_pair] at hmem
    obtain ⟨hk, rfl⟩ := hmem
    exact le_min hm (hcap k hk).le
  · rw [mem_map_pair] at hmem
    obtain ⟨hk, rfl⟩ := hmem
    exact le_min hm (hcap k hk).le
  · rw [mem_map_pair] at hmem
    obtain ⟨hk, rfl⟩ := hmem
    rw [not_le] at hR1 hR2
    have h1 : 0 ≤ min m (lookupD caps' k) := le_min hm (hcap k hk).le
    have h2 := extra0_nonneg
      (fun j => lookupD caps' j - min m (lookupD caps' j)) hR1 hR2 k
    have h3 := extrasF_ge
      (total - sumOver (caps'.map Prod.fst) (fun j => min m (lookupD caps' j)))
      ((((caps'.map Prod.fst).map
        (fun j => lookupD caps' j - min m (lookupD caps' j))).filter
          (fun v => decide (0 < v))).sum)
      (fun j => lookupD caps' j - min m (lookupD caps' j))
      (caps'.map Prod.fst) dk k
    omega

/-! ### Properties of `allocProportionalWithMin` -/

theorem alloc_keys_cases (total : Int) (caps : List (K × Int)) (m : Int) :
    (allocProportionalWithMin total caps m).map Prod.fst = caps.map Prod.fst ∨
    (allocProportionalWithMin total caps m).map Prod.fst
      = (caps.filter (fun p => decide (0 < p.2))).map Prod.fst := by
  unfold allocProportionalWithMin
  split_ifs with h
  · left
    simp [List.map_map, Function.comp_def]
  · split
    next heq => right; rw [heq]
    next p rest heq => right; rw [allocCore_keys, heq]

theorem alloc_keys_nodup (total : Int) {caps : List (K × Int)} (m : Int)
    (hnd : (caps.map Prod.fst).Nodup) :
    ((allocProportionalWithMin total caps m).map Prod.fst).Nodup := by
  rcases alloc_keys_cases total caps m with h | h
  · rw [h]; exact hnd
  · rw [h]; exact nodup_filter_fst _ hnd

/-- C1 (code bug): the docstring's budget rule "Total allocated <=
total" (src/store_picker.py line 32) fails.  At `total = 2^53 + 4` with
a single stratum of capacity `2^53 + 10` and `min_per_stratum = 1`,
regime B computes `remaining = 2^53 + 3`, which is not representable in
binary64: its conversion to double rounds (ties-to-even) up to
`2^53 + 4`.  The proportion `cap_rem / remaining_total` is exactly
`1.0`, so line 86 yields the extra `2^53 + 4` and the returned quota is
`1 + (2^53 + 4) = total + 1`.  The leftover on line 91 is then `-1`,
so the redistribution loop cannot correct the overshoot. -/
theorem claim_C1_budget_overflow :
    ¬ (((allocProportionalWithMin 9007199254740996
          [((0 : Nat), (9007199254741002 : Int))] 1).map Prod.snd).sum
        ≤ 9007199254740996) := by
  decide

/-- C2: for every `total`, every capacity map (a dict:
pairwise-distinct keys), and every `min_per_stratum`, every key present
in the result of `alloc_proportional_with_min` with a positive capacity
is assigned a quota at most its capacity. -/
theorem claim_C2_capacity_bound (total m : Int) (caps : List (K × Int))
    (hnd : (caps.map Prod.fst).Nodup) (k : K) (q : Int)
    (hmem : (k, q) ∈ allocProportionalWithMin total caps m)
    (hcap : 0 < lookupD caps k) :
    q ≤ lookupD caps k := by
  unfold allocProportionalWithMin at hmem
  split_ifs at hmem with h
  · rcases List.mem_map.mp hmem with ⟨p, hp, hpe⟩
    injection hpe with h1 h2
    omega
  · split at hmem
    next heq => cases hmem
    next p rest heq =>
      have hvals' : ∀ x ∈ p :: rest, 0 < x.2 := by
        intro x hx
        rw [← heq] at hx
        exact of_decide_eq_true (List.mem_filter.mp hx).2
      have h1 := allocCore_le_cap hvals' hmem
      have hk : k ∈ (p :: rest).map Prod.fst := by
        have h2 := List.mem_map_of_mem Prod.fst hmem
        rwa [allocCore_keys] at h2
      have h3 : lookupD (p :: rest) k = lookupD caps k := by
        rw [← heq] at hk ⊢
        exact lookupD_filter_of_mem hnd hk
      omega

theorem claim_C2_witness :
    ((0 : Nat), (3 : Int)) ∈ allocProportionalWithMin 9 [((0 : Nat), (10 : Int)), (1, 10), (2, 10)] 1 ∧
    (3 : Int) ≤ lookupD [((0 : Nat), (10 : Int)), (1, 10), (2, 10)] 0 :=
  ⟨by decide, claim_C2_capacity_bound 9 1 _ (by decide) 0 3 (by decide) (by decide)⟩

/-- C3: for every capacity map (a dict: pairwise-distinct keys) and
`min_per_stratum` `m`, if `total ≥ (number of keys) * m` and every
capacity is at least `m`, then every quota returned by
`alloc_proportional_with_min` is at least `m`. -/
theorem claim_C3_minimum_guarantee (total m : Int) (caps : List (K × Int))
    (hnd : (caps.map Prod.fst).Nodup)
    (htot : (caps.length : Int) * m ≤ total)
    (hcap : ∀ p ∈ caps, m ≤ p.2) (k : K) (q : Int)
    (hmem : (k, q) ∈ allocProportionalWithMin total caps m) :
    m ≤ q := by
  unfold allocProportionalWithMin at hmem
  split_ifs at hmem with h
  · rcases List.mem_map.mp hmem with ⟨p, hp, hpe⟩
    injection hpe with h1 h2
    rcases h with hcnil | hle
    · rw [hcnil] at hp
      cases hp
    · have hlen : 1 ≤ caps.length := List.length_pos.mpr (List.ne_nil_of_mem hp)
      have hlen' : (1 : Int) ≤ (caps.length : Int) := by exact_mod_cast hlen
      nlinarith
  · push_neg at h
    obtain ⟨hc, ht⟩ := h
    split at hmem
    next heq => cases hmem
    next p rest heq =>
      have hvals' : ∀ x ∈ p :: rest, 0 < x.2 := by
        intro x hx
        rw [← heq] at hx
        exact of_decide_eq_true (List.mem_filter.mp hx).2
      have hB : (((p :: rest).length : Int)) * m ≤ total := by
        by_cases hm : 0 < m
        · have hfe : caps.filter (fun p => decide (0 < p.2)) = caps :=
            List.filter_eq_self.mpr
              (fun a ha => decide_eq_true (lt_of_lt_of_le hm (hcap a ha)))
          rw [← heq, hfe]
          exact htot
        · push_neg at hm
          have hle0 : (((p :: rest).length : Int)) * m ≤ 0 :=
            mul_nonpos_of_nonneg_of_nonpos (by positivity) hm
          linarith
      have h1 := allocCore_ge_min hvals' (by simp) hB hmem
      have hk : k ∈ (p :: rest).map Prod.fst := by
        have h2 := List.mem_map_of_mem Prod.fst hmem
        rwa [allocCore_keys] at h2
      have hmemp := lookupD_mem_of_mem_fst hk
      have hmemp' : (k, lookupD (p :: rest) k) ∈ caps.filter (fun p => decide (0 < p.2)) := by
        rw [heq]
        exact hmemp
      have hmemc : (k, lookupD (p :: rest) k) ∈ caps := (List.mem_filter.mp hmemp').1
      have h2 := hcap _ hmemc
      have h3 : min m (lookupD (p :: rest) k) = m := min_eq_left h2
      omega

theorem claim_C3_witness :
    ((0 : Nat), (3 : Int)) ∈ allocProportionalWithMin 9 [((0 : Nat), (10 : Int)), (1, 10), (2, 10)] 1 ∧
    (1 : Int) ≤ 3 :=
  ⟨by decide, claim_C3_minimum_guarantee 9 1 [((0 : Nat), (10 : Int)), (1, 10), (2, 10)]
    (by decide) (by decide) (by decide) 0 3 (by decide)⟩

/-- C4 counterexample: the claim also asserts absence of
zero-capacity keys for `total ≤ 0`, but at `total = 0` the source
returns `{k: 0 for k in keys}` (line 36-37) before zero-capacity keys
are dropped, so the key `0` with capacity `0` appears in the result. -/
theorem claim_C4_counterexample :
    lookupD [((0 : Nat), (0 : Int))] 0 ≤ 0 ∧
    (0 : Nat) ∈ (allocProportionalWithMin 0 [((0 : Nat), (0 : Int))] 1).map Prod.fst := by
  decide

/-- C4 (amended): for every `total > 0` (when `total ≤ 0` every input
key appears with quota 0), every capacity map (a dict:
pairwise-distinct keys) and every `min_per_stratum`, a key whose
capacity is at most 0 is absent from the returned quota map. -/
theorem claim_C4_zero_capacity_dropped (total m : Int) (caps : List (K × Int)) (k : K)
    (hnd : (caps.map Prod.fst).Nodup) (htot : 0 < total)
    (hcap : lookupD caps k ≤ 0) :
    k ∉ (allocProportionalWithMin total caps m).map Prod.fst := by
  intro hk
  unfold allocProportionalWithMin at hk
  split_ifs at hk with h
  · rcases h with hcnil | hle
    · rw [hcnil] at hk
      simp at hk
    · omega
  · split at hk
    next heq => simp at hk
    next p rest heq =>
      rw [allocCore_keys] at hk
      have h1 := lookupD_mem_of_mem_fst hk
      have h1' : (k, lookupD (p :: rest) k) ∈ caps.filter (fun p => decide (0 < p.2)) := by
        rw [heq]
        exact h1
      have h2 : 0 < lookupD (p :: rest) k :=
        of_decide_eq_true (List.mem_filter.mp h1').2
      have h3 : lookupD (p :: rest) k = lookupD caps k := by
        rw [← heq] at hk ⊢
        exact lookupD_filter_of_mem hnd hk
      omega

theorem claim_C4_witness :
    (0 : Nat) ∉ (allocProportionalWithMin 3 [((0 : Nat), (0 : Int)), (1, 5)] 1).map Prod.fst :=
  claim_C4_zero_capacity_dropped 3 1 _ 0 (by decide) (by decide) (by decide)

/-! ### Stratum-key normalization (C9) -/

theorem upChar_upChar (c : Nat) : upChar (upChar c) = upChar c := by
  unfold upChar
  split_ifs <;> omega

theorem isWs_upChar (c : Nat) : isWs (upChar c) = isWs c := by
  unfold isWs upChar
  split_ifs with h
  · simp only [decide_eq_decide]
    omega
  · rfl

theorem pyUpper_pyUpper (s : Str) : pyUpper (pyUpper s) = pyUpper s := by
  simp only [pyUpper, List.map_map]
  exact List.map_congr_left fun c _ => upChar_upChar c

theorem dropWhile_isWs_map_upChar (s : Str) :
    (s.map upChar).dropWhile isWs = (s.dropWhile isWs).map upChar := by
  rw [List.dropWhile_map]
  have hp : (isWs ∘ upChar) = isWs := by
    funext c
    simp [Function.comp_def, isWs_upChar]
  rw [hp]

theorem pyStrip_pyUpper (s : Str) : pyStrip (pyUpper s) = pyUpper (pyStrip s) := by
  unfold pyStrip pyUpper
  rw [dropWhile_isWs_map_upChar, ← List.map_reverse, dropWhile_isWs_map_upChar,
    ← List.map_reverse]

theorem dropWhile_dropWhile (p : Nat → Bool) (l : List Nat) :
    (l.dropWhile p).dropWhile p = l.dropWhile p := by
  induction l with
  | nil => rfl
  | cons a t ih =>
    by_cases h : p a
    · rw [List.dropWhile_cons_of_pos h]
      exact ih
    · rw [List.dropWhile_cons_of_neg h, List.dropWhile_cons_of_neg h]

theorem dropWhile_eq_self_of_head (p : Nat → Bool) (l : List Nat)
    (h : ∀ a, l.head? = some a → p a = false) : l.dropWhile p = l := by
  cases l with
  | nil => rfl
  | cons a t =>
    have ha := h a rfl
    rw [List.dropWhile_cons_of_neg (by rw [ha]; exact Bool.false_ne_true)]

theorem head?_dropWhile_false (p : Nat → Bool) (l : List Nat) :
    ∀ a, (l.dropWhile p).head? = some a → p a = false := by
  induction l with
  | nil => intro a h; cases h
  | cons b t ih =>
    intro a h
    by_cases hb : p b
    · rw [List.dropWhile_cons_of_pos hb] at h
      exact ih a h
    · rw [List.dropWhile_cons_of_neg hb] at h
      cases h
      exact Bool.not_eq_true _ |>.mp hb

theorem dropWhile_suffix_ex (p : Nat → Bool) (l : List Nat) :
    ∃ w, w ++ l.dropWhile p = l := by
  induction l with
  | nil => exact ⟨[], rfl⟩
  | cons a t ih =>
    by_cases h : p a
    · obtain ⟨w, hw⟩ := ih
      refine ⟨a :: w, ?_⟩
      rw [List.dropWhile_cons_of_pos h, List.cons_append, hw]
    · exact ⟨[], by rw [List.dropWhile_cons_of_neg h, List.nil_append]⟩

theorem pyStrip_pyStrip (s : Str) : pyStrip (pyStrip s) = pyStrip s := by
  unfold pyStrip
  have hhead : ∀ a,
      (((s.dropWhile isWs).reverse.dropWhile isWs).reverse).head? = some a →
        isWs a = false := by
    intro a ha
    obtain ⟨w, hw⟩ := dropWhile_suffix_ex isWs (s.dropWhile isWs).reverse
    have hu : s.dropWhile isWs
        = ((s.dropWhile isWs).reverse.dropWhile isWs).reverse ++ w.reverse := by
      calc s.dropWhile isWs
          = (s.dropWhile isWs).reverse.reverse := (List.reverse_reverse _).symm
        _ = (w ++ (s.dropWhile isWs).reverse.dropWhile isWs).reverse := by rw [hw]
        _ = ((s.dropWhile isWs).reverse.dropWhile isWs).reverse ++ w.reverse :=
            List.reverse_append _ _
    apply head?_dropWhile_false isWs s a
    rw [hu]
    cases hB : ((s.dropWhile isWs).reverse.dropWhile isWs).reverse with
    | nil => rw [hB] at ha; cases ha
    | cons b u =>
      rw [hB] at ha
      cases ha
      rfl
  rw [dropWhile_eq_self_of_head isWs _ hhead, List.reverse_reverse,
    dropWhile_dropWhile]

/-- C9: the stratum-key normalization (fill missing with `"UNKNOWN"`,
convert to string, strip whitespace, upper-case) is idempotent:
applying it to the result of a first application yields the same
string. -/
theorem claim_C9_normalization_idempotent (c : Cell) :
    normValue (some (normValue c)) = normValue c := by
  unfold normValue
  simp only [Option.getD_some]
  rw [pyStrip_pyUpper, pyStrip_pyStrip, pyUpper_pyUpper]

/-! ### Validation (C8), determinism (C7), frame effect (C10) -/

/-- C8 counterexample: the claim's "all other inputs return normally"
is false — with a duplicated stratification column label every named
column is present, yet the call still raises (line 150: `df[col]`
selects a two-column frame, which has no `.str` accessor, an
`AttributeError`). -/
theorem claim_C8_counterexample :
    (([105] : Str) ∈ ([[115], [115], [105]] : List Str)
      ∧ ∀ c ∈ ([[115]] : List Str), c ∈ ([[115], [115], [105]] : List Str))
    ∧ (pickStores takeSampler ⟨[[115], [115], [105]], [[some [88], some [88], some [65]]]⟩
        [105] [[115]] 1 none 1).isOk = false := by
  constructor
  · exact ⟨by decide, by decide⟩
  · decide

/-- C8 (amended): provided the dataframe's column labels are pairwise
distinct and the stratification list is non-empty (or no row survives
the id-null filter), `pick_stores` raises an error if and only if
`id_col` or some name in `strat_cols` is not a column of the input
dataframe; moreover the column check depends only on the column names
and arguments — when it fails, the result is the same for any row
contents, any sampler, and any remaining arguments (the check precedes
all filtering, normalization and sampling). -/
theorem claim_C8_validation (S : Sampler) (df : Df) (idCol : Str) (stratCols : List Str)
    (targetN : Int) (seed : Option Int) (m : Int)
    (hnd : df.cols.Nodup)
    (hsc : stratCols ≠ []
      ∨ df.rows.filter (fun r => (getCell df.cols r idCol).isSome) = []) :
    ((pickStores S df idCol stratCols targetN seed m).isOk = true ↔
      (idCol ∈ df.cols ∧ ∀ c ∈ stratCols, c ∈ df.cols)) ∧
    (∀ (S' : Sampler) (rows' : List Row) (targetN' : Int) (seed' : Option Int) (m' : Int),
      ¬(idCol ∈ df.cols ∧ ∀ c ∈ stratCols, c ∈ df.cols) →
      pickStores S df idCol stratCols targetN seed m
        = pickStores S' ⟨df.cols, rows'⟩ idCol stratCols targetN' seed' m') := by
  have hdup : stratCols.filter
      (fun c => decide (2 ≤ df.cols.countP (fun c2 => decide (c2 = c)))) = [] := by
    rw [List.filter_eq_nil_iff]
    intro c _
    have hc1 : df.cols.countP (fun c2 => decide (c2 = c)) ≤ 1 := by
      have h := List.nodup_iff_count_le_one.mp hnd c
      simpa [List.count_eq_countP] using h
    simp only [decide_eq_true_eq]
    omega
  have hstrat : ¬(stratCols = []
      ∧ df.rows.filter (fun r => (getCell df.cols r idCol).isSome) ≠ []) := by
    rcases hsc with h | h
    · exact fun hc => h hc.1
    · exact fun hc => hc.2 h
  constructor
  · unfold pickStores
    by_cases h1 : idCol ∉ df.cols
    · rw [if_pos h1]
      simp only [Except.isOk, Except.toBool, Bool.false_eq_true, false_iff]
      intro hc
      exact h1 hc.1
    · rw [if_neg h1]
      rw [not_not] at h1
      by_cases h2 : stratCols.filter (fun c => decide (c ∉ df.cols)) ≠ []
      · rw [if_pos h2]
        simp only [Except.isOk, Except.toBool, Bool.false_eq_true, false_iff]
        intro hc
        rw [Ne, List.filter_eq_nil_iff] at h2
        apply h2
        intro a ha
        simp [hc.2 a ha]
      · rw [if_neg h2, if_neg (fun hne => hne hdup), if_neg hstrat]
        simp only [Except.isOk, Except.toBool, true_iff]
        refine ⟨h1, ?_⟩
        intro c hc
        rw [not_not, List.filter_eq_nil_iff] at h2
        have h3 := h2 c hc
        simpa using h3
  · intro S' rows' targetN' seed' m' hnot
    unfold pickStores
    dsimp only
    by_cases h1 : idCol ∉ df.cols
    · rw [if_pos h1, if_pos h1]
    · rw [if_neg h1, if_neg h1]
      rw [not_not] at h1
      by_cases h2 : stratCols.filter (fun c => decide (c ∉ df.cols)) ≠ []
      · rw [if_pos h2, if_pos h2]
      · exfalso
        apply hnot
        refine ⟨h1, ?_⟩
        intro c hc
        rw [not_not, List.filter_eq_nil_iff] at h2
        have h3 := h2 c hc
        simpa using h3

theorem claim_C8_witness :
    (([[105], [115]] : List Str).Nodup
      ∧ ([[115]] : List Str) ≠ [])
    ∧ (pickStores takeSampler ⟨[[105], [115]], [[some [65], some [88]]]⟩
        [105] [[115]] 2 none 1).isOk = true :=
  ⟨⟨by decide, by decide⟩,
    (claim_C8_validation takeSampler ⟨[[105], [115]], [[some [65], some [88]]]⟩
      [105] [[115]] 2 none 1 (by decide) (Or.inl (by decide))).1.mpr (by decide)⟩

/-- C7: `pick_stores` is deterministic in the seed: two calls with
identical input dataframe, identical column arguments, identical
`target_n`, identical `min_per_stratum`, and the same seed (hence the
same seeded random stream) return selections with the same identifier
texts. -/
theorem claim_C7_determinism (S : Sampler) (df₁ df₂ : Df) (idCol₁ idCol₂ : Str)
    (stratCols₁ stratCols₂ : List Str) (targetN₁ targetN₂ : Int)
    (seed₁ seed₂ : Option Int) (m₁ m₂ : Int)
    (hdf : df₁ = df₂) (hid : idCol₁ = idCol₂) (hsc : stratCols₁ = stratCols₂)
    (ht : targetN₁ = targetN₂) (hs : seed₁ = seed₂) (hm : m₁ = m₂) :
    (pickStoresRows S df₁ idCol₁ stratCols₁ targetN₁ seed₁ m₁).map (idText df₁.cols idCol₁)
      = (pickStoresRows S df₂ idCol₂ stratCols₂ targetN₂ seed₂ m₂).map
          (idText df₂.cols idCol₂) := by
  subst hdf hid hsc ht hs hm
  rfl

theorem claim_C7_witness :
    (pickStoresRows takeSampler ⟨[[105], [115]], [[some [65], some [88]], [some [66], some [88]]]⟩
        [105] [[115]] 1 (some 42) 1).map (idText [[105], [115]] [105])
      = (pickStoresRows takeSampler ⟨[[105], [115]], [[some [65], some [88]], [some [66], some [88]]]⟩
        [105] [[115]] 1 (some 42) 1).map (idText [[105], [115]] [105]) :=
  claim_C7_determinism takeSampler
    ⟨[[105], [115]], [[some [65], some [88]], [some [66], some [88]]]⟩
    ⟨[[105], [115]], [[some [65], some [88]], [some [66], some [88]]]⟩
    [105] [105] [[115]] [[115]] 1 1 (some 42) (some 42) 1 1
    rfl rfl rfl rfl rfl rfl

theorem getD_set_ne {α : Type} (l : List α) (i j : Nat) (v d : α) (hne : i ≠ j) :
    (l.set i v).getD j d = l.getD j d := by
  rw [List.getD_eq_getElem?_getD, List.getD_eq_getElem?_getD, List.getElem?_set_ne hne]

theorem getD_append_left {α : Type} (l₁ l₂ : List α) (j : Nat) (d : α)
    (hj : j < l₁.length) :
    (l₁ ++ l₂).getD j d = l₁.getD j d := by
  rw [List.getD_eq_getElem?_getD, List.getD_eq_getElem?_getD,
    List.getElem?_append_left hj]

/-- C10: `pick_stores` never modifies the caller's dataframe object:
the heap slot holding the argument dataframe is unchanged by the call
(all filtering, normalization, and the helper `_stratum_key` column hit
only the fresh copy made on line 142). -/
theorem claim_C10_no_mutation (S : Sampler) (heap : List Df) (dfRef : Nat)
    (idCol : Str) (stratCols : List Str) (targetN : Int) (seed : Option Int) (m : Int)
    (href : dfRef < heap.length) :
    (pickStoresTrace S heap dfRef idCol stratCols targetN seed m).1.getD dfRef ⟨[], []⟩
      = heap.getD dfRef ⟨[], []⟩ := by
  simp only [pickStoresTrace]
  by_cases h1 : idCol ∉ (heap.getD dfRef ⟨[], []⟩).cols
  · rw [if_pos h1]
  · rw [if_neg h1]
    by_cases h2 : stratCols.filter
        (fun c => decide (c ∉ (heap.getD dfRef ⟨[], []⟩).cols)) ≠ []
    · rw [if_pos h2]
    · rw [if_neg h2]
      dsimp only
      have hne : heap.length ≠ dfRef := (Nat.ne_of_lt href).symm
      rw [getD_set_ne _ _ _ _ _ hne, getD_set_ne _ _ _ _ _ hne,
        getD_append_left _ _ _ _ href]

theorem claim_C10_witness :
    (pickStoresTrace takeSampler [⟨[[105]], [[some [65]]]⟩] 0 [105] [] 1 none
        1).1.getD 0 ⟨[], []⟩
      = ([⟨[[105]], [[some [65]]]⟩] : List Df).getD 0 ⟨[], []⟩ :=
  claim_C10_no_mutation takeSampler _ 0 [105] [] 1 none 1 (by decide)

/-! ### Selection machinery (C5, C6) -/

theorem map_getD_range {α : Type} (l : List α) (d : α) :
    (List.range l.length).map (fun i => l.getD i d) = l := by
  apply List.ext_getElem
  · simp
  · intro i h1 h2
    simp only [List.getElem_map, List.getElem_range]
    exact List.getD_eq_getElem l d h2

theorem range_texts_nodup {cols : List Str} {idCol : Str} {rows : List Row}
    (hids : (rows.map (idText cols idCol)).Nodup) :
    ((List.range rows.length).map
      (fun i => idText cols idCol (rows.getD i []))).Nodup := by
  have heq : (List.range rows.length).map (fun i => idText cols idCol (rows.getD i []))
      = rows.map (idText cols idCol) := by
    conv_rhs => rw [← map_getD_range rows ([] : Row)]
    rw [List.map_map]
    rfl
  rw [heq]
  exact hids

theorem textAt_inj {cols : List Str} {idCol : Str} {rows : List Row}
    (hids : (rows.map (idText cols idCol)).Nodup)
    {i j : Nat} (hi : i < rows.length) (hj : j < rows.length)
    (he : idText cols idCol (rows.getD i []) = idText cols idCol (rows.getD j [])) :
    i = j :=
  List.inj_on_of_nodup_map (range_texts_nodup hids)
    (List.mem_range.mpr hi) (List.mem_range.mpr hj) he

theorem stratumIdxs_nodup (cols stratCols : List Str) (rows : List Row)
    (key : List Str) : (stratumIdxs cols stratCols rows key).Nodup :=
  (List.nodup_range _).filter _

theorem mem_stratumIdxs {cols stratCols : List Str} {rows : List Row}
    {key : List Str} {i : Nat} (h : i ∈ stratumIdxs cols stratCols rows key) :
    i < rows.length ∧ rowKey cols stratCols (rows.getD i []) = key := by
  unfold stratumIdxs at h
  have h1 := List.mem_filter.mp h
  exact ⟨List.mem_range.mp h1.1, of_decide_eq_true h1.2⟩

theorem picks_map_getD_nodup {idxs : List Nat} (hnd : idxs.Nodup)
    {picks : List Nat} (hp : picks.Nodup) (hlt : ∀ j ∈ picks, j < idxs.length) :
    (picks.map (fun j => idxs.getD j 0)).Nodup := by
  refine List.Nodup.map_on ?_ hp
  intro x hx y hy he
  have hx' := hlt x hx
  have hy' := hlt y hy
  rw [List.getD_eq_getElem _ _ hx', List.getD_eq_getElem _ _ hy'] at he
  exact (hnd.getElem_inj_iff).mp he

theorem mem_picks_map_getD {idxs picks : List Nat}
    (hlt : ∀ j ∈ picks, j < idxs.length) {x : Nat}
    (hx : x ∈ picks.map (fun j => idxs.getD j 0)) : x ∈ idxs := by
  rcases List.mem_map.mp hx with ⟨j, hj, rfl⟩
  rw [List.getD_eq_getElem _ _ (hlt j hj)]
  exact List.getElem_mem _

theorem foldl_dedup_nodup {α : Type} [DecidableEq α] :
    ∀ (l acc : List α), acc.Nodup →
      (l.foldl (fun acc a => if a ∈ acc then acc else acc ++ [a]) acc).Nodup := by
  intro l
  induction l with
  | nil => intro acc h; exact h
  | cons a t ih =>
    intro acc h
    simp only [List.foldl_cons]
    by_cases ha : a ∈ acc
    · rw [if_pos ha]
      exact ih acc h
    · rw [if_neg ha]
      refine ih _ (h.append (List.nodup_singleton a) ?_)
      intro x hx hxa
      rw [List.mem_singleton] at hxa
      exact ha (hxa ▸ hx)

theorem firstDedup_nodup {α : Type} [DecidableEq α] (l : List α) :
    (firstDedup l).Nodup :=
  foldl_dedup_nodup l [] List.nodup_nil

theorem valueCounts_keys_nodup (ks : List (List Str)) :
    ((valueCounts ks).map Prod.fst).Nodup := by
  unfold valueCounts
  have hperm := List.perm_insertionSort (fun a b => b.2 ≤ a.2)
    ((firstDedup ks).map (fun k => (k, (countKey ks k : Int))))
  have hperm2 := hperm.map Prod.fst
  apply hperm2.symm.nodup
  rw [fst_map_pair]
  exact firstDedup_nodup ks

theorem drawStrata_invariant (S : Sampler) (seed : Option Int) (cols stratCols : List Str)
    (rows : List Row) :
    ∀ (quotas : List (List Str × Int)) (ctr : Nat) (sel : List Nat),
      (quotas.map Prod.fst).Nodup →
      sel.Nodup →
      (∀ i ∈ sel, i < rows.length) →
      (∀ i ∈ sel, rowKey cols stratCols (rows.getD i []) ∉ quotas.map Prod.fst) →
      (drawStrata S seed cols stratCols rows quotas ctr sel).2.Nodup ∧
        ∀ i ∈ (drawStrata S seed cols stratCols rows quotas ctr sel).2, i < rows.length := by
  intro quotas
  induction quotas with
  | nil =>
    intro ctr sel hq hs hb hk
    simp only [drawStrata]
    exact ⟨hs, hb⟩
  | cons kq rest ih =>
    obtain ⟨key, quota⟩ := kq
    intro ctr sel hq hs hb hk
    rw [List.map_cons, List.nodup_cons] at hq
    simp only [drawStrata]
    by_cases h1 : quota ≤ 0
    · rw [if_pos h1]
      exact ih ctr sel hq.2 hs hb
        (fun i hi hmem => hk i hi (by rw [List.map_cons]; exact List.mem_cons_of_mem _ hmem))
    · rw [if_neg h1]
      by_cases h2 : stratumIdxs cols stratCols rows key = []
      · rw [if_pos h2]
        exact ih ctr sel hq.2 hs hb
          (fun i hi hmem => hk i hi (by rw [List.map_cons]; exact List.mem_cons_of_mem _ hmem))
      · rw [if_neg h2]
        have hlen : (min quota (((stratumIdxs cols stratCols rows key).length : Int))).toNat
            ≤ (stratumIdxs cols stratCols rows key).length := by
          rw [Int.toNat_le]
          exact min_le_right _ _
        have hplt := S.pick_lt (S.stream seed ctr)
          (min quota (((stratumIdxs cols stratCols rows key).length : Int))).toNat
          (stratumIdxs cols stratCols rows key).length hlen
        have hpartnd : ((S.pick (S.stream seed ctr)
            (min quota (((stratumIdxs cols stratCols rows key).length : Int))).toNat
            (stratumIdxs cols stratCols rows key).length).map
              (fun j => (stratumIdxs cols stratCols rows key).getD j 0)).Nodup :=
          picks_map_getD_nodup (stratumIdxs_nodup cols stratCols rows key)
            (S.pick_nodup _ _ _) hplt
        have hpartsub : ∀ x ∈ (S.pick (S.stream seed ctr)
            (min quota (((stratumIdxs cols stratCols rows key).length : Int))).toNat
            (stratumIdxs cols stratCols rows key).length).map
              (fun j => (stratumIdxs cols stratCols rows key).getD j 0),
            x ∈ stratumIdxs cols stratCols rows key :=
          fun x hx => mem_picks_map_getD hplt hx
        apply ih (ctr + 1) _ hq.2
        · refine hs.append hpartnd ?_
          intro x hx hxp
          have hkey := (mem_stratumIdxs (hpartsub x hxp)).2
          apply hk x hx
          rw [List.map_cons, hkey]
          exact List.mem_cons_self _ _
        · intro i hi
          rcases List.mem_append.mp hi with h | h
          · exact hb i h
          · exact (mem_stratumIdxs (hpartsub i h)).1
        · intro i hi
          rcases List.mem_append.mp hi with h | h
          · exact fun hmem => hk i h (by rw [List.map_cons]; exact List.mem_cons_of_mem _ hmem)
          · have hkey := (mem_stratumIdxs (hpartsub i h)).2
            rw [hkey]
            exact hq.1

theorem remIdxs_nodup (cols : List Str) (idCol : Str) (rows : List Row)
    (sel : List Nat) : (remIdxs cols idCol rows sel).Nodup :=
  (List.nodup_range _).filter _

theorem mem_remIdxs {cols : List Str} {idCol : Str} {rows : List Row}
    {sel : List Nat} {i : Nat} (h : i ∈ remIdxs cols idCol rows sel) :
    i < rows.length
      ∧ idText cols idCol (rows.getD i []) ∉ selTexts cols idCol rows sel := by
  unfold remIdxs at h
  have h1 := List.mem_filter.mp h
  exact ⟨List.mem_range.mp h1.1, of_decide_eq_true h1.2⟩

theorem topUpSel_texts_nodup (S : Sampler) (seed : Option Int) {cols : List Str}
    {idCol : Str} {rows : List Row} (totalTarget : Int) (ctr : Nat) (sel : List Nat)
    (hids : (rows.map (idText cols idCol)).Nodup)
    (hnd : sel.Nodup) (hb : ∀ i ∈ sel, i < rows.length) :
    ((topUpSel S seed cols idCol rows totalTarget ctr sel).map
      (fun i => idText cols idCol (rows.getD i []))).Nodup := by
  have hselTexts : (sel.map (fun i => idText cols idCol (rows.getD i []))).Nodup :=
    List.Nodup.map_on
      (fun x hx y hy he => textAt_inj hids (hb x hx) (hb y hy) he) hnd
  unfold topUpSel
  by_cases h1 : (sel.length : Int) < totalTarget
  · rw [if_pos h1]
    by_cases h2 : remIdxs cols idCol rows sel = []
    · rw [if_pos h2]
      exact hselTexts
    · rw [if_neg h2]
      have hle : (min (totalTarget - (sel.length : Int))
          (((remIdxs cols idCol rows sel).length : Int))).toNat
          ≤ (remIdxs cols idCol rows sel).length := by
        rw [Int.toNat_le]
        exact min_le_right _ _
      have hplt := S.pick_lt (S.stream seed ctr) _ _ hle
      have hpartsub : ∀ x ∈ (S.pick (S.stream seed ctr)
          (min (totalTarget - (sel.length : Int))
            (((remIdxs cols idCol rows sel).length : Int))).toNat
          (remIdxs cols idCol rows sel).length).map
            (fun j => (remIdxs cols idCol rows sel).getD j 0),
          x ∈ remIdxs cols idCol rows sel :=
        fun x hx => mem_picks_map_getD hplt hx
      have hpartnd : ((S.pick (S.stream seed ctr)
          (min (totalTarget - (sel.length : Int))
            (((remIdxs cols idCol rows sel).length : Int))).toNat
          (remIdxs cols idCol rows sel).length).map
            (fun j => (remIdxs cols idCol rows sel).getD j 0)).Nodup :=
        picks_map_getD_nodup (remIdxs_nodup cols idCol rows sel)
          (S.pick_nodup _ _ _) hplt
      rw [List.map_append]
      refine hselTexts.append ?_ ?_
      · refine List.Nodup.map_on ?_ hpartnd
        intro x hx y hy he
        exact textAt_inj hids (mem_remIdxs (hpartsub x hx)).1
          (mem_remIdxs (hpartsub y hy)).1 he
      · intro t ht htp
        rcases List.mem_map.mp htp with ⟨i, hi, rfl⟩
        exact (mem_remIdxs (hpartsub i hi)).2 ht
  · rw [if_neg h1]
    exact hselTexts

/-- C5 (code bug): the claimed size bound `len(result) <= min(target_n,
len(df))` fails.  On a frame of `2^53 + 10` rows with pairwise-distinct
non-null ids forming the single stratum `("X",)`, with `target_n =
2^53 + 4` and `min_per_stratum = 1`, `pick_stores` computes
`total_target = min(target_n, len(df))` (line 163) and the capacity
dict `{("X",): 2^53 + 10}` (lines 161-162) — exactly the allocator call
below, whose quotas sum to `total_target + 1 = 2^53 + 5` through the
binary64 rounding of `remaining` on line 86.  The stratum holds at
least that many rows, so the per-stratum draw (line 182) returns
`2^53 + 5` rows, `len(selected) < total_target` fails, the top-up is
skipped, and the returned frame exceeds `total_target`. -/
theorem claim_C5_size_overflow :
    ¬ (((allocProportionalWithMin
          (min (9007199254740996 : Int) 9007199254741002)
          [(([[88]] : List Str), (9007199254741002 : Int))] 1).map Prod.snd).sum
        ≤ min (9007199254740996 : Int) 9007199254741002) := by
  decide

/-- C6 counterexample: on an input with two rows sharing the id text
"A" in a single stratum (one stratification column, both rows "X") and
`target_n = 2`, both rows are selected, so the selection has duplicate
identifiers. -/
theorem claim_C6_counterexample :
    ¬ ((pickStoresRows takeSampler
        ⟨[[105], [115]], [[some [65], some [88]], [some [65], some [88]]]⟩
        [105] [[115]] 2 none 1).map (idText [[105], [115]] [105])).Nodup := by
  decide

/-- C6 (amended): provided the rows surviving the id-null filter and
normalization have pairwise-distinct id texts (the spec's §9 caveat:
duplicate non-null identifiers are not deduplicated), the selection
returned by `pick_stores` contains no duplicate identifiers: no two
returned rows have equal id-column values compared as text. -/
theorem claim_C6_no_duplicate_ids (S : Sampler) (df : Df) (idCol : Str)
    (stratCols : List Str) (targetN : Int) (seed : Option Int) (m : Int)
    (hids : ((normRows df idCol stratCols).map (idText df.cols idCol)).Nodup) :
    ((pickStoresRows S df idCol stratCols targetN seed m).map
      (idText df.cols idCol)).Nodup := by
  have hds := drawStrata_invariant S seed df.cols stratCols (normRows df idCol stratCols)
    (allocProportionalWithMin (min targetN ((normRows df idCol stratCols).length : Int))
      (valueCounts ((normRows df idCol stratCols).map (rowKey df.cols stratCols))) m)
    0 []
    (alloc_keys_nodup _ _ (valueCounts_keys_nodup _)) List.nodup_nil
    (by intro i hi; cases hi) (by intro i hi; cases hi)
  simp only [pickStoresRows, selIdxs, List.map_map]
  have hcomp : (idText df.cols idCol ∘ fun i => (normRows df idCol stratCols).getD i [])
      = fun i => idText df.cols idCol ((normRows df idCol stratCols).getD i []) := rfl
  rw [hcomp]
  exact topUpSel_texts_nodup S seed _ _ _ hids hds.1 hds.2

theorem claim_C6_witness :
    ((pickStoresRows takeSampler
        ⟨[[105], [115]], [[some [65], some [88]], [some [66], some [88]]]⟩
        [105] [[115]] 2 none 1).map (idText [[105], [115]] [105])).Nodup :=
  claim_C6_no_duplicate_ids takeSampler
    ⟨[[105], [115]], [[some [65], some [88]], [some [66], some [88]]]⟩
    [105] [[115]] 2 none 1 (by decide)

end StorePicker
